import Mathlib

/-!
Shallow embedding of the PrabbyDD/Ray-Tracer sources (src/include/vec3.h,
ray.h, interval.h, hittableObject.h, sphere.h, hittable_list.h, material.h,
color.h, camera.h) over the real numbers, together with theorems settling
the frozen claims about them.

Modelling conventions:
* C++ `double` values are embedded as real numbers; `interval` bounds, which
  the program sets to IEEE plus/minus infinity, are embedded in `EReal`.
* `bool hit(..., hit_record& rec)` members, which write `rec` exactly when
  they return true, are embedded as `Option hit_record`; the aggregate
  `hittable_list::hit`, whose out-parameter discipline is itself under
  scrutiny, is embedded in explicit state-passing style.
* calls to the random generators `random_double()` / `random_unit_vector()`
  are nondeterministic; each call site receives its draw as an explicit
  oracle argument.
* `Qsqrt` (vec3.h) reinterprets float bits and has no real-number meaning;
  every definition that uses `unit_vectorQ` is parametrised by the function
  `Qs : ℝ → ℝ` it computes.
-/

noncomputable section

/-- Three-component real vector (vec3.h `class vec3`); also used as `point3`
and `color`. -/
structure vec3 where
  x : ℝ
  y : ℝ
  z : ℝ

/-- C++ `vec3()` assigns three zeros. -/
instance : Inhabited vec3 := ⟨⟨0, 0, 0⟩⟩

/-- vec3.h `operator-` (unary). -/
instance : Neg vec3 := ⟨fun v => ⟨-v.x, -v.y, -v.z⟩⟩

/-- vec3.h `operator+(u, v)`. -/
instance : Add vec3 := ⟨fun u v => ⟨u.x + v.x, u.y + v.y, u.z + v.z⟩⟩

/-- vec3.h `operator-(u, v)`. -/
instance : Sub vec3 := ⟨fun u v => ⟨u.x - v.x, u.y - v.y, u.z - v.z⟩⟩

/-- vec3.h `operator*(u, v)` (componentwise). -/
instance : Mul vec3 := ⟨fun u v => ⟨u.x * v.x, u.y * v.y, u.z * v.z⟩⟩

/-- vec3.h `operator*(t, v)` (scalar times vector). -/
instance : HMul ℝ vec3 vec3 := ⟨fun t v => ⟨t * v.x, t * v.y, t * v.z⟩⟩

/-- vec3.h `operator*(v, t)`, defined in the source as `t * v`. -/
instance : HMul vec3 ℝ vec3 := ⟨fun v t => (t : ℝ) * v⟩

/-- vec3.h `operator/(v, t)`, defined in the source as `(1/t) * v`. -/
instance : HDiv vec3 ℝ vec3 := ⟨fun v t => (1 / t : ℝ) * v⟩

@[simp] theorem vec3.neg_x (v : vec3) : (-v).x = -v.x := rfl
@[simp] theorem vec3.neg_y (v : vec3) : (-v).y = -v.y := rfl
@[simp] theorem vec3.neg_z (v : vec3) : (-v).z = -v.z := rfl
@[simp] theorem vec3.add_x (u v : vec3) : (u + v).x = u.x + v.x := rfl
@[simp] theorem vec3.add_y (u v : vec3) : (u + v).y = u.y + v.y := rfl
@[simp] theorem vec3.add_z (u v : vec3) : (u + v).z = u.z + v.z := rfl
@[simp] theorem vec3.sub_x (u v : vec3) : (u - v).x = u.x - v.x := rfl
@[simp] theorem vec3.sub_y (u v : vec3) : (u - v).y = u.y - v.y := rfl
@[simp] theorem vec3.sub_z (u v : vec3) : (u - v).z = u.z - v.z := rfl
@[simp] theorem vec3.mul_x (u v : vec3) : (u * v).x = u.x * v.x := rfl
@[simp] theorem vec3.mul_y (u v : vec3) : (u * v).y = u.y * v.y := rfl
@[simp] theorem vec3.mul_z (u v : vec3) : (u * v).z = u.z * v.z := rfl
@[simp] theorem vec3.smul_x (t : ℝ) (v : vec3) : (t * v).x = t * v.x := rfl
@[simp] theorem vec3.smul_y (t : ℝ) (v : vec3) : (t * v).y = t * v.y := rfl
@[simp] theorem vec3.smul_z (t : ℝ) (v : vec3) : (t * v).z = t * v.z := rfl
@[simp] theorem vec3.mul_scalar_def (v : vec3) (t : ℝ) : v * t = t * v := rfl
@[simp] theorem vec3.div_scalar_def (v : vec3) (t : ℝ) :
    v / t = (1 / t : ℝ) * v := rfl

/-- vec3.h `length_squared()`. -/
def vec3.length_squared (v : vec3) : ℝ := v.x * v.x + v.y * v.y + v.z * v.z

/-- vec3.h `length()`. -/
def vec3.length (v : vec3) : ℝ := Real.sqrt v.length_squared

/-- vec3.h `near_zero()`.  The source reads
`(fabs(e[0]) < s) && (fabs(e[1] < s)) && (fabs(e[2]) < s)`: in the middle
conjunct `fabs` is applied to the *boolean* `e[1] < s` (converted to the
double `0.0` or `1.0`), and the `&&` then tests that double for being
nonzero, so the middle conjunct is equivalent to the signed test
`e[1] < s`, not to `|e[1]| < s`. -/
def vec3.near_zero (v : vec3) : Prop :=
  |v.x| < 1e-8 ∧ |(if v.y < 1e-8 then (1 : ℝ) else 0)| ≠ 0 ∧ |v.z| < 1e-8

instance (v : vec3) : Decidable v.near_zero := by
  unfold vec3.near_zero; exact instDecidableAnd

/-- vec3.h `dot(u, v)`. -/
def dot (u v : vec3) : ℝ := u.x * v.x + u.y * v.y + u.z * v.z

/-- vec3.h `cross(u, v)`. -/
def cross (u v : vec3) : vec3 :=
  ⟨u.y * v.z - u.z * v.y, u.z * v.x - u.x * v.z, u.x * v.y - u.y * v.x⟩

/-- vec3.h `reflect(v, n) = v - 2*dot(v,n)*n`. -/
def reflect (v n : vec3) : vec3 := v - (2 * dot v n) * n

/-- vec3.h `refract(uv, n, etai_over_etat)` (Snell's law decomposition);
`fmin` is `min` and `fabs` is `|·|`. -/
def refract (uv n : vec3) (etai_over_etat : ℝ) : vec3 :=
  let cos_theta := min (dot (-uv) n) 1
  let r_out_perp := etai_over_etat * (uv + cos_theta * n)
  let r_out_parallel :=
    (-(Real.sqrt |1 - r_out_perp.length_squared|)) * n
  r_out_perp + r_out_parallel

/-- vec3.h `unit_vectorQ(v) = v * Qsqrt((float)v.length_squared())`.  The
bit-level float32 routine `Qsqrt` is abstracted as the parameter `Qs`. -/
def unit_vectorQ (Qs : ℝ → ℝ) (v : vec3) : vec3 := v * Qs v.length_squared

/-- Parametric ray (ray.h): origin plus direction. -/
structure ray where
  orig : vec3
  dir : vec3

/-- C++ `ray()` leaves both members default-constructed, i.e. zero. -/
instance : Inhabited ray := ⟨⟨⟨0, 0, 0⟩, ⟨0, 0, 0⟩⟩⟩

/-- ray.h `at(t) = orig + t*dir`. -/
def ray.at (r : ray) (t : ℝ) : vec3 := r.orig + t * r.dir

/-- Real-valued interval (interval.h) with a min and a max value; the bounds
are embedded in `EReal` because the program also builds intervals whose
bounds are IEEE plus/minus infinity. -/
structure interval where
  min : EReal
  max : EReal

/-- interval.h `contains(x)` (closed test). -/
def interval.isin (i : interval) (x : ℝ) : Prop :=
  (x : EReal) ≥ i.min ∧ (x : EReal) ≤ i.max

/-- interval.h `surrounds(x)` (open test). -/
def interval.surrounds (i : interval) (x : ℝ) : Prop :=
  (x : EReal) > i.min ∧ (x : EReal) < i.max

instance (i : interval) (x : ℝ) : Decidable (i.surrounds x) := by
  unfold interval.surrounds; exact instDecidableAnd

instance (i : interval) (x : ℝ) : Decidable (i.isin x) := by
  unfold interval.isin; exact instDecidableAnd

/-- interval.h `clamp(x)`: saturate `x` to the bounds. -/
def interval.clamp (i : interval) (x : ℝ) : EReal :=
  if (x : EReal) < i.min then i.min
  else if (x : EReal) > i.max then i.max
  else (x : EReal)

/-- Modelled from the spec: rtweekend.h (not under src/) defines `infinity`
as the IEEE double positive infinity, used by the path integrator's
`t ∈ (0.001, +∞)` search interval; in the `EReal` embedding it is `⊤`. -/
def infinity : EReal := ⊤

/-- Material variants (material.h): `Lambertian(albedo)`,
`Metal(albedo, fuzz)`, `Dielectric(refractive index)`. -/
inductive material where
  | lambertian (albedo : vec3)
  | metal (albedo : vec3) (fuzz : ℝ)
  | dielectric (ir : ℝ)

/-- Hit record (hittableObject.h): hit point, parameter `t`, normal,
front-face flag and the material at the hit. -/
structure hit_record where
  p : vec3
  t : ℝ
  normal : vec3
  frontfacing : Bool
  mat : material

/-- Default-constructed `hit_record` locals of the C++ code (`t` and
`frontfacing` are indeterminate there and never observed before being
written; any fixed values model them). -/
instance : Inhabited hit_record :=
  ⟨⟨⟨0, 0, 0⟩, 0, ⟨0, 0, 0⟩, false, .lambertian ⟨0, 0, 0⟩⟩⟩

/-- hittableObject.h `hit_record::set_face_normal`: make the stored normal
point against the incoming ray. -/
def hit_record.set_face_normal (rec : hit_record) (r : ray)
    (outward_normal : vec3) : hit_record :=
  let frontfacing := decide (dot r.dir outward_normal < 0)
  { rec with
    frontfacing := frontfacing
    normal := if frontfacing then outward_normal else -outward_normal }

/-- Sphere (sphere.h): center, radius and material. -/
structure sphere where
  center : vec3
  radius : ℝ
  mat : material

/-- Quadratic coefficient `a = r.direction().length_squared()` of
sphere.h `hit`. -/
def sphere.acoef (_s : sphere) (r : ray) : ℝ := r.dir.length_squared

/-- Quadratic coefficient `half_b = dot(r.direction(), oc)` of sphere.h
`hit`, with `oc = r.origin() - center`. -/
def sphere.half_b (s : sphere) (r : ray) : ℝ := dot r.dir (r.orig - s.center)

/-- Quadratic coefficient `c = oc.length_squared() - radius*radius` of
sphere.h `hit`. -/
def sphere.ccoef (s : sphere) (r : ray) : ℝ :=
  (r.orig - s.center).length_squared - s.radius * s.radius

/-- `discriminant = half_b*half_b - a*c` of sphere.h `hit`. -/
def sphere.disc (s : sphere) (r : ray) : ℝ :=
  s.half_b r * s.half_b r - s.acoef r * s.ccoef r

/-- The first root `(-half_b - d_sqrt) / a` tried by sphere.h `hit`. -/
def sphere.root1 (s : sphere) (r : ray) : ℝ :=
  (-s.half_b r - Real.sqrt (s.disc r)) / s.acoef r

/-- The second root `(-half_b + d_sqrt) / a` tried by sphere.h `hit`. -/
def sphere.root2 (s : sphere) (r : ray) : ℝ :=
  (-s.half_b r + Real.sqrt (s.disc r)) / s.acoef r

/-- The record sphere.h `hit` writes on success at parameter `root`:
`rec.t = root`, `rec.p = r.at(root)`, outward normal `(rec.p - center) /
radius` oriented by `set_face_normal`, and the sphere's material. -/
def sphere.record (s : sphere) (r : ray) (root : ℝ) : hit_record :=
  let p := r.at root
  let outward_normal := (p - s.center) / s.radius
  hit_record.set_face_normal ⟨p, root, outward_normal, false, s.mat⟩ r
    outward_normal

/-- sphere.h `hit`: no real roots means no hit; otherwise the nearer root
`root1` is taken when it lies strictly inside `ray_t` (the open `surrounds`
test), else the farther root `root2`, else no hit.  The C++ signature
`bool hit(ray, interval, hit_record&)` writes the record exactly when it
returns true, embedded here as `Option hit_record`. -/
def sphere.hit (s : sphere) (r : ray) (ray_t : interval) :
    Option hit_record :=
  if s.disc r < 0 then none
  else if ray_t.surrounds (s.root1 r) then some (s.record r (s.root1 r))
  else if ray_t.surrounds (s.root2 r) then some (s.record r (s.root2 r))
  else none

@[simp] theorem sphere.record_t (s : sphere) (r : ray) (root : ℝ) :
    (s.record r root).t = root := rfl

@[simp] theorem sphere.record_p (s : sphere) (r : ray) (root : ℝ) :
    (s.record r root).p = r.at root := rfl

@[simp] theorem sphere.record_mat (s : sphere) (r : ray) (root : ℝ) :
    (s.record r root).mat = s.mat := rfl

theorem vec3.length_squared_nonneg (v : vec3) : 0 ≤ v.length_squared := by
  unfold vec3.length_squared
  nlinarith [sq_nonneg v.x, sq_nonneg v.y, sq_nonneg v.z]

theorem sphere.root1_le_root2 (s : sphere) (r : ray) :
    s.root1 r ≤ s.root2 r := by
  unfold sphere.root1 sphere.root2
  have hs : 0 ≤ Real.sqrt (s.disc r) := Real.sqrt_nonneg _
  exact div_le_div_of_nonneg_right (by linarith)
    (vec3.length_squared_nonneg r.dir)

/-- Characterisation of a successful sphere hit. -/
theorem sphere.hit_eq_some_iff (s : sphere) (r : ray) (ray_t : interval)
    (rec : hit_record) :
    s.hit r ray_t = some rec ↔
      ¬s.disc r < 0 ∧
        ((ray_t.surrounds (s.root1 r) ∧ rec = s.record r (s.root1 r)) ∨
          (¬ray_t.surrounds (s.root1 r) ∧ ray_t.surrounds (s.root2 r) ∧
            rec = s.record r (s.root2 r))) := by
  unfold sphere.hit
  split_ifs with h1 h2 h3 <;>
    simp_all [eq_comm]

theorem sphere.hit_surrounds (s : sphere) (r : ray) (ray_t : interval)
    (rec : hit_record) (h : s.hit r ray_t = some rec) :
    ray_t.surrounds rec.t := by
  rcases (sphere.hit_eq_some_iff s r ray_t rec).mp h with
    ⟨-, ⟨hs, hrec⟩ | ⟨-, hs, hrec⟩⟩ <;> rw [hrec] <;> simpa using hs

/-- Shrinking the upper bound of the search interval commutes with a sphere
hit: the hit against the shrunken interval is exactly the hit against the
original interval when that hit's `t` lies below the shrunken bound. -/
theorem sphere.hit_shrink (s : sphere) (r : ray) (m c M : EReal)
    (hcM : c ≤ M) (rec : hit_record) :
    s.hit r ⟨m, c⟩ = some rec ↔
      (s.hit r ⟨m, M⟩ = some rec ∧ (rec.t : EReal) < c) := by
  have h12 : ((s.root1 r : ℝ) : EReal) ≤ ((s.root2 r : ℝ) : EReal) :=
    EReal.coe_le_coe_iff.mpr (s.root1_le_root2 r)
  rw [sphere.hit_eq_some_iff, sphere.hit_eq_some_iff]
  unfold interval.surrounds
  constructor
  · rintro ⟨hd, ⟨⟨h1a, h1b⟩, hrec⟩ | ⟨hn1, ⟨h2a, h2b⟩, hrec⟩⟩
    · exact ⟨⟨hd, Or.inl ⟨⟨h1a, lt_of_lt_of_le h1b hcM⟩, hrec⟩⟩,
        by rw [hrec, sphere.record_t]; exact h1b⟩
    · refine ⟨⟨hd, Or.inr ⟨?_, ⟨h2a, lt_of_lt_of_le h2b hcM⟩, hrec⟩⟩,
        by rw [hrec, sphere.record_t]; exact h2b⟩
      rintro ⟨g1, _⟩
      exact hn1 ⟨g1, lt_of_le_of_lt h12 h2b⟩
  · rintro ⟨⟨hd, ⟨⟨h1a, _⟩, hrec⟩ | ⟨hn1, ⟨h2a, h2b⟩, hrec⟩⟩, htc⟩
    · refine ⟨hd, Or.inl ⟨⟨h1a, ?_⟩, hrec⟩⟩
      rw [hrec, sphere.record_t] at htc; exact htc
    · rw [hrec, sphere.record_t] at htc
      refine ⟨hd, Or.inr ⟨?_, ⟨h2a, htc⟩, hrec⟩⟩
      rintro ⟨g1, g2⟩
      exact hn1 ⟨g1, lt_of_lt_of_le g2 hcM⟩

/-- Loop body of hittable_list.h `hit`: iterate the members, tracking
`closest_so_far` (the shrinking upper bound), the `hit_anything` flag and
the caller's record `rec`, which is overwritten exactly when a member
reports a hit against the shrunken interval.  (The C++ temporary `tmp` is
written by `sphere::hit` exactly when that call returns true and is copied
to `rec` right after, so `rec` tracks it.) -/
def hittable_list.hitLoop (r : ray) (t_min : EReal) :
    List sphere → EReal → Bool → hit_record → Bool × hit_record
  | [], _, hit_anything, rec => (hit_anything, rec)
  | obj :: rest, closest_so_far, hit_anything, rec =>
    match obj.hit r ⟨t_min, closest_so_far⟩ with
    | some tmp => hittable_list.hitLoop r t_min rest (tmp.t : EReal) true tmp
    | none => hittable_list.hitLoop r t_min rest closest_so_far hit_anything
        rec

/-- hittable_list.h `hit`: run the loop over the members starting from
`closest_so_far = ray_t.max`, `hit_anything = false` and the caller's
record. -/
def hittable_list.hit (objs : List sphere) (r : ray) (ray_t : interval)
    (rec : hit_record) : Bool × hit_record :=
  hittable_list.hitLoop r ray_t.min objs ray_t.max false rec

theorem hittable_list.hitLoop_true_fst (r : ray) (m : EReal) :
    ∀ (objs : List sphere) (c : EReal) (ρ : hit_record),
      (hittable_list.hitLoop r m objs c true ρ).1 = true := by
  intro objs
  induction objs with
  | nil => intro c ρ; rfl
  | cons s rest ih =>
    intro c ρ
    unfold hittable_list.hitLoop
    cases h : s.hit r ⟨m, c⟩ with
    | none => simpa [h] using ih c ρ
    | some tmp => simpa [h] using ih (tmp.t : EReal) tmp

/-- If the loop reports no hit, the flag was false all along and the
caller's record is returned untouched. -/
theorem hittable_list.hitLoop_frame (r : ray) (m : EReal) :
    ∀ (objs : List sphere) (c : EReal) (b : Bool) (ρ : hit_record),
      (hittable_list.hitLoop r m objs c b ρ).1 = false →
        b = false ∧ (hittable_list.hitLoop r m objs c b ρ).2 = ρ := by
  intro objs
  induction objs with
  | nil => intro c b ρ h; exact ⟨h, rfl⟩
  | cons s rest ih =>
    intro c b ρ h
    cases hs : s.hit r ⟨m, c⟩ with
    | none =>
      simp only [hittable_list.hitLoop, hs] at h ⊢
      exact ih c b ρ h
    | some tmp =>
      simp only [hittable_list.hitLoop, hs] at h
      have htrue := hittable_list.hitLoop_true_fst r m rest (tmp.t : EReal) tmp
      simp [h] at htrue

/-- Behaviour of the loop after a first hit has been found: starting from
flag `true`, current record `ρ` and bound `ρ.t ≤ Mt`, the loop returns
`true` together with either `ρ` itself (and then no remaining member beats
`ρ.t` against the full interval `⟨m, Mt⟩`), or the full-interval hit of
some remaining member `w`, strictly closer than `ρ` and than every
member before `w`, and at least as close as every member after `w`. -/
theorem hittable_list.hitLoop_true_spec (r : ray) (m Mt : EReal) :
    ∀ (objs : List sphere) (ρ : hit_record), (ρ.t : EReal) ≤ Mt →
      ∃ rec, hittable_list.hitLoop r m objs (ρ.t : EReal) true ρ =
          (true, rec) ∧
        ((rec = ρ ∧
            ∀ s ∈ objs, ∀ ρ', s.hit r ⟨m, Mt⟩ = some ρ' → ρ.t ≤ ρ'.t) ∨
          (rec.t < ρ.t ∧ ∃ l₁ w l₂, objs = l₁ ++ w :: l₂ ∧
            w.hit r ⟨m, Mt⟩ = some rec ∧
            (∀ s ∈ l₁, ∀ ρ', s.hit r ⟨m, Mt⟩ = some ρ' → rec.t < ρ'.t) ∧
            (∀ s ∈ l₂, ∀ ρ', s.hit r ⟨m, Mt⟩ = some ρ' →
              rec.t ≤ ρ'.t))) := by
  intro objs
  induction objs with
  | nil =>
    intro ρ hρ
    exact ⟨ρ, rfl, Or.inl ⟨rfl, by simp⟩⟩
  | cons s rest ih =>
    intro ρ hρ
    cases hs : s.hit r ⟨m, (ρ.t : EReal)⟩ with
    | none =>
      obtain ⟨rec, heq, hdisj⟩ := ih ρ hρ
      have hbound : ∀ ρ', s.hit r ⟨m, Mt⟩ = some ρ' → ρ.t ≤ ρ'.t := by
        intro ρ' hfull
        by_contra hlt
        push_neg at hlt
        have hsh : s.hit r ⟨m, (ρ.t : EReal)⟩ = some ρ' :=
          (sphere.hit_shrink s r m _ Mt hρ ρ').mpr
            ⟨hfull, EReal.coe_lt_coe_iff.mpr hlt⟩
        rw [hs] at hsh
        exact Option.noConfusion hsh
      refine ⟨rec, by simp only [hittable_list.hitLoop, hs]; exact heq, ?_⟩
      rcases hdisj with ⟨hrec, hall⟩ | ⟨hlt, l₁, w, l₂, hsplit, hw, hstrict,
          hweak⟩
      · refine Or.inl ⟨hrec, ?_⟩
        intro s' hs' ρ' hρ'
        rcases List.mem_cons.mp hs' with rfl | hmem
        · exact hbound ρ' hρ'
        · exact hall s' hmem ρ' hρ'
      · refine Or.inr ⟨hlt, s :: l₁, w, l₂, by rw [hsplit]; rfl, hw, ?_,
          hweak⟩
        intro s' hs' ρ' hρ'
        rcases List.mem_cons.mp hs' with rfl | hmem
        · exact lt_of_lt_of_le hlt (hbound ρ' hρ')
        · exact hstrict s' hmem ρ' hρ'
    | some tmp =>
      obtain ⟨hsfull, htlt⟩ :=
        (sphere.hit_shrink s r m (ρ.t : EReal) Mt hρ tmp).mp hs
      have htlt' : tmp.t < ρ.t := EReal.coe_lt_coe_iff.mp htlt
      have htmpM : (tmp.t : EReal) ≤ Mt := le_trans (le_of_lt htlt) hρ
      obtain ⟨rec, heq, hdisj⟩ := ih tmp htmpM
      refine ⟨rec, by simp only [hittable_list.hitLoop, hs]; exact heq,
        Or.inr ?_⟩
      rcases hdisj with ⟨hrec, hall⟩ | ⟨hlt, l₁, w, l₂, hsplit, hw, hstrict,
          hweak⟩
      · refine ⟨by rw [hrec]; exact htlt', [], s, rest, rfl, ?_, by simp,
          ?_⟩
        · rw [hrec]; exact hsfull
        · intro s' hs' ρ' hρ'
          rw [hrec]
          exact hall s' hs' ρ' hρ'
      · refine ⟨lt_trans hlt htlt', s :: l₁, w, l₂, by rw [hsplit]; rfl,
          hw, ?_, hweak⟩
        intro s' hs' ρ' hρ'
        rcases List.mem_cons.mp hs' with rfl | hmem
        · rw [hsfull] at hρ'
          injection hρ' with hρ'
          rw [← hρ']
          exact hlt
        · exact hstrict s' hmem ρ' hρ'

/-- Full-interval characterisation of a successful aggregate hit, starting
from the not-yet-hit state: the returned record is the full-interval hit of
some member `w`; members before `w` hit only strictly farther (so the first
member attaining the minimal `t` wins ties), members after `w` hit no
closer. -/
theorem hittable_list.hitLoop_false_spec (r : ray) (m Mt : EReal)
    (ρ₀ : hit_record) :
    ∀ (objs : List sphere) (rec : hit_record),
      hittable_list.hitLoop r m objs Mt false ρ₀ = (true, rec) →
      ∃ l₁ w l₂, objs = l₁ ++ w :: l₂ ∧ w.hit r ⟨m, Mt⟩ = some rec ∧
        (∀ s ∈ l₁, ∀ ρ', s.hit r ⟨m, Mt⟩ = some ρ' → rec.t < ρ'.t) ∧
        (∀ s ∈ l₂, ∀ ρ', s.hit r ⟨m, Mt⟩ = some ρ' → rec.t ≤ ρ'.t) := by
  intro objs
  induction objs with
  | nil =>
    intro rec h
    simp [hittable_list.hitLoop] at h
  | cons s rest ih =>
    intro rec h
    cases hs : s.hit r ⟨m, Mt⟩ with
    | none =>
      simp only [hittable_list.hitLoop, hs] at h
      obtain ⟨l₁, w, l₂, hsplit, hw, hstrict, hweak⟩ := ih rec h
      refine ⟨s :: l₁, w, l₂, by rw [hsplit]; rfl, hw, ?_, hweak⟩
      intro s' hs' ρ' hρ'
      rcases List.mem_cons.mp hs' with rfl | hmem
      · rw [hs] at hρ'
        exact Option.noConfusion hρ'
      · exact hstrict s' hmem ρ' hρ'
    | some tmp =>
      simp only [hittable_list.hitLoop, hs] at h
      have htmpM : (tmp.t : EReal) ≤ Mt :=
        le_of_lt (sphere.hit_surrounds s r ⟨m, Mt⟩ tmp hs).2
      obtain ⟨rec', heq, hdisj⟩ :=
        hittable_list.hitLoop_true_spec r m Mt rest tmp htmpM
      rw [heq] at h
      injection h with _ hrec
      subst hrec
      rcases hdisj with ⟨hrec, hall⟩ | ⟨hlt, l₁, w, l₂, hsplit, hw, hstrict,
          hweak⟩
      · refine ⟨[], s, rest, rfl, by rw [hrec]; exact hs, by simp,
          ?_⟩
        intro s' hs' ρ' hρ'
        rw [hrec]
        exact hall s' hs' ρ' hρ'
      · refine ⟨s :: l₁, w, l₂, by rw [hsplit]; rfl, hw, ?_, hweak⟩
        intro s' hs' ρ' hρ'
        rcases List.mem_cons.mp hs' with rfl | hmem
        · rw [hs] at hρ'
          injection hρ' with hρ'
          rw [← hρ']
          exact hlt
        · exact hstrict s' hmem ρ' hρ'

/-- Packaged form of the aggregate characterisation at the caller's
interval. -/
theorem hittable_list.hit_spec (objs : List sphere) (r : ray)
    (ray_t : interval) (ρ₀ rec : hit_record)
    (h : hittable_list.hit objs r ray_t ρ₀ = (true, rec)) :
    ∃ l₁ w l₂, objs = l₁ ++ w :: l₂ ∧ w.hit r ray_t = some rec ∧
      (∀ s ∈ l₁, ∀ ρ', s.hit r ray_t = some ρ' → rec.t < ρ'.t) ∧
      (∀ s ∈ l₂, ∀ ρ', s.hit r ray_t = some ρ' → rec.t ≤ ρ'.t) :=
  hittable_list.hitLoop_false_spec r ray_t.min ray_t.max ρ₀ objs rec h

/-- Modelled from the spec: rtweekend.h's `random_double()` and vec3.h's
`random_unit_vector()` are nondeterministic; the draws a single `scatter`
call can make are supplied to it as this explicit oracle value.
`does_it_scatter` models the `random_double()` the Lambertian and Metal
variants draw first, `ruv` the `random_unit_vector()` they draw, and `draw`
the `random_double()` the Dielectric variant compares reflectance to. -/
structure rand_draws where
  does_it_scatter : ℝ
  ruv : vec3
  draw : ℝ

/-- material.h `dielectric::reflectance` (Schlick approximation). -/
def reflectance (cosine ref_idx : ℝ) : ℝ :=
  let r0 := (1 - ref_idx) / (1 + ref_idx)
  let r0 := r0 * r0
  r0 + (1 - r0) * (1 - cosine) ^ (5 : ℕ)

/-- material.h `scatter` of the three variants.  C++ signature
`bool scatter(ray r, hit_record rec, color& attenuation, ray& scattered)`:
the out-parameters are threaded explicitly, so the result triple carries
the returned bool and the final values of `attenuation` and `scattered`
(unchanged when the code path never assigns them). -/
def material.scatter (m : material) (Qs : ℝ → ℝ) (rnd : rand_draws)
    (r : ray) (rec : hit_record) (attenuation : vec3) (scattered : ray) :
    Bool × vec3 × ray :=
  match m with
  | .lambertian albedo =>
    if rnd.does_it_scatter < 1 then
      let scatter_dir := rec.normal + rnd.ruv
      let scatter_dir := if scatter_dir.near_zero then rec.normal
        else scatter_dir
      (true, albedo / (1 : ℝ), ⟨rec.p, scatter_dir⟩)
    else
      (false, attenuation, scattered)
  | .metal albedo fuzz =>
    if rnd.does_it_scatter < 1 then
      let reflected := reflect (unit_vectorQ Qs r.dir) rec.normal
      let scattered' : ray := ⟨rec.p, reflected + fuzz * rnd.ruv⟩
      (decide (dot scattered'.dir rec.normal > 0), albedo / (1 : ℝ),
        scattered')
    else
      (false, attenuation, scattered)
  | .dielectric ir =>
    let refraction_ratio := if rec.frontfacing then 1 / ir else ir
    let unit_direction := unit_vectorQ Qs r.dir
    let cos_theta := min (dot (-unit_direction) rec.normal) 1
    let sin_theta := Real.sqrt (1 - cos_theta * cos_theta)
    let cannot_refract := refraction_ratio * sin_theta > 1
    let direction :=
      if cannot_refract ∨ reflectance cos_theta refraction_ratio > rnd.draw
      then reflect unit_direction rec.normal
      else refract unit_direction rec.normal refraction_ratio
    (true, ⟨1, 1, 1⟩, ⟨rec.p, direction⟩)

/-- color.h `linear_to_gamma` (square root). -/
def linear_to_gamma (linear_component : ℝ) : ℝ :=
  Real.sqrt linear_component

/-- C++ `static_cast<int>` on a double: truncation toward zero. -/
def trunc_int (x : ℝ) : ℤ := if 0 ≤ x then ⌊x⌋ else -⌊-x⌋

/-- color.h `write_color`'s static clamping interval `intensity`. -/
def intensity : interval := ⟨((0 : ℝ) : EReal), ((0.999 : ℝ) : EReal)⟩

/-- color.h `write_color`: average the accumulated pixel color over the
sample count, gamma-correct each channel, clamp it to `intensity`, scale by
`255.999` and truncate; the emitted `"r g b"` line is embedded as the
integer triple.  (The `intensity` bounds are finite, so `EReal.toReal`
mediates the clamp result back to the reals exactly.) -/
def write_color (pixel_color : vec3) (samples_per_pixel : ℤ) : ℤ × ℤ × ℤ :=
  let scale := 1 / (samples_per_pixel : ℝ)
  let r := linear_to_gamma (pixel_color.x * scale)
  let g := linear_to_gamma (pixel_color.y * scale)
  let b := linear_to_gamma (pixel_color.z * scale)
  (trunc_int (255.999 * (intensity.clamp r).toReal),
    trunc_int (255.999 * (intensity.clamp g).toReal),
    trunc_int (255.999 * (intensity.clamp b).toReal))

/-- camera.h `ray_color`: depth exhausted gives black; otherwise intersect
the world over `(0.001, infinity)`; on a hit ask the material to scatter
and recurse with `depth - 1` (multiplying by the attenuation), or return
black on absorption; on no hit return the background gradient.  The scene
is a `hittable_list` of spheres, the per-bounce random draws come from the
oracle stream `rnds`, and the C++ locals `hit_record rec; ray scattered;
color attenuation;` are default-constructed. -/
def camera.ray_color (Qs : ℝ → ℝ) (rnds : ℕ → rand_draws)
    (world : List sphere) (r : ray) (depth : ℤ) : vec3 :=
  if depth ≤ 0 then ⟨0, 0, 0⟩
  else
    let res := hittable_list.hit world r ⟨((0.001 : ℝ) : EReal), infinity⟩
      default
    if res.1 then
      let rec' := res.2
      let sc := rec'.mat.scatter Qs (rnds 0) r rec' default default
      if sc.1 then
        sc.2.1 * camera.ray_color Qs (fun n => rnds (n + 1)) world sc.2.2
          (depth - 1)
      else ⟨0, 0, 0⟩
    else
      let unit_dir := unit_vectorQ Qs r.dir
      let a := 0.5 * (unit_dir.y + 1)
      ((1 : ℝ) - a) * (⟨1, 1, 1⟩ : vec3) + a * (⟨0.5, 0.7, 1.0⟩ : vec3)
  termination_by depth.toNat
  decreasing_by
    simp only [not_le] at *
    omega

/-- Concrete scene used by the witnesses: a unit sphere two units in front
of the origin. -/
def sphereW : sphere := ⟨⟨0, 0, -2⟩, 1, .lambertian ⟨0, 0, 0⟩⟩

/-- Concrete witness ray: shot from the origin straight at `sphereW`. -/
def rayW : ray := ⟨⟨0, 0, 0⟩, ⟨0, 0, -1⟩⟩

/-- Concrete witness query interval `(1/2, 2)`. -/
def intervalW : interval := ⟨((1 / 2 : ℝ) : EReal), ((2 : ℝ) : EReal)⟩

/-- The record `sphereW.hit rayW intervalW` produces. -/
def recW : hit_record := ⟨⟨0, 0, -1⟩, 1, ⟨0, 0, 1⟩, true, .lambertian ⟨0, 0, 0⟩⟩

theorem sphereW_disc : sphereW.disc rayW = 1 := by
  norm_num [sphere.disc, sphere.half_b, sphere.acoef, sphere.ccoef,
    sphereW, rayW, dot, vec3.length_squared]

theorem vec3.ext_xyz {a b : vec3} (hx : a.x = b.x) (hy : a.y = b.y)
    (hz : a.z = b.z) : a = b := by
  cases a; cases b
  simp only [vec3.mk.injEq]
  exact ⟨hx, hy, hz⟩

theorem sphereW_root1 : sphereW.root1 rayW = 1 := by
  unfold sphere.root1
  rw [sphereW_disc, Real.sqrt_one]
  norm_num [sphere.half_b, sphere.acoef, sphereW, rayW, dot,
    vec3.length_squared]

theorem sphereW_root2 : sphereW.root2 rayW = 3 := by
  unfold sphere.root2
  rw [sphereW_disc, Real.sqrt_one]
  norm_num [sphere.half_b, sphere.acoef, sphereW, rayW, dot,
    vec3.length_squared]

theorem intervalW_surrounds_one : intervalW.surrounds (1 : ℝ) := by
  constructor
  · rw [intervalW]
    exact EReal.coe_lt_coe_iff.mpr (by norm_num)
  · rw [intervalW]
    exact EReal.coe_lt_coe_iff.mpr (by norm_num)

theorem sphereW_record_one : sphereW.record rayW 1 = recW := by
  have hp : rayW.at 1 = (⟨0, 0, -1⟩ : vec3) := by
    apply vec3.ext_xyz <;> norm_num [ray.at, rayW]
  have hout : (rayW.at 1 - sphereW.center) / sphereW.radius =
      (⟨0, 0, 1⟩ : vec3) := by
    rw [hp]
    apply vec3.ext_xyz <;> norm_num [sphereW]
  have hdot : decide (dot rayW.dir (⟨0, 0, 1⟩ : vec3) < 0) = true := by
    rw [decide_eq_true_eq]
    norm_num [dot, rayW]
  unfold sphere.record hit_record.set_face_normal
  simp only [hout, hdot, if_true]
  rw [hp]
  rfl

theorem sphereW_hit_main : sphereW.hit rayW intervalW = some recW := by
  unfold sphere.hit
  rw [if_neg (by rw [sphereW_disc]; norm_num),
    if_pos (by rw [sphereW_root1]; exact intervalW_surrounds_one),
    sphereW_root1, sphereW_record_one]

/-- C1: whenever `sphere::hit` returns a record, the recorded `t` lies
strictly inside the queried interval (the open `surrounds` test), the
recorded point equals `ray.at(t) = origin + t*direction`, and `t` is the
smaller quadratic root `(-half_b - sqrt(disc))/a` when that root lies
strictly inside the interval, and the larger root otherwise. -/
theorem claim_C1 (s : sphere) (r : ray) (ray_t : interval)
    (rec : hit_record) (h : s.hit r ray_t = some rec) :
    ray_t.surrounds rec.t ∧ rec.p = r.at rec.t ∧
      rec.t = if ray_t.surrounds (s.root1 r) then s.root1 r
        else s.root2 r := by
  rcases (sphere.hit_eq_some_iff s r ray_t rec).mp h with
    ⟨-, ⟨hs1, hrec⟩ | ⟨hn1, hs2, hrec⟩⟩
  · subst hrec
    refine ⟨by simpa using hs1, by simp, ?_⟩
    rw [if_pos hs1, sphere.record_t]
  · subst hrec
    refine ⟨by simpa using hs2, by simp, ?_⟩
    rw [if_neg hn1, sphere.record_t]

/-- Witness for C1: the concrete hit of `sphereW` by `rayW` over
`intervalW`. -/
theorem claim_C1_witness :
    intervalW.surrounds recW.t ∧ recW.p = rayW.at recW.t ∧
      recW.t = if intervalW.surrounds (sphereW.root1 rayW) then
        sphereW.root1 rayW else sphereW.root2 rayW :=
  claim_C1 sphereW rayW intervalW recW sphereW_hit_main

/-- C5 concerns `vec3::near_zero`, whose spec says it is true exactly when
all three components have magnitude below `1e-8`.  The code's middle
conjunct `fabs(e[1] < s)` (a typo for `fabs(e[1]) < s`, contradicting the
function's own comment) instead tests `e[1] < s`, so the vector
`(0, -1, 0)` is reported near-zero even though `|-1| ≥ 1e-8`. -/
theorem claim_C5_near_zero_bug :
    vec3.near_zero ⟨0, -1, 0⟩ ∧ ¬(|(-1 : ℝ)| < 1e-8) := by
  constructor
  · refine ⟨by norm_num, ?_, by norm_num⟩
    rw [if_pos (by norm_num)]
    norm_num
  · norm_num

/-- C6: `ray_color` terminates (it is a total function of its structurally
decreasing depth argument: every recursive call uses `depth - 1`), and as
soon as `depth ≤ 0` it returns black, so with `max_depth = 0` every
per-sample path color is `(0,0,0)` for every scene and every ray. -/
theorem claim_C6 (Qs : ℝ → ℝ) (rnds : ℕ → rand_draws)
    (world : List sphere) (r : ray) (depth : ℤ) (h : depth ≤ 0) :
    camera.ray_color Qs rnds world r depth = ⟨0, 0, 0⟩ := by
  rw [camera.ray_color, if_pos h]

/-- Witness for C6 at depth 0 with a concrete oracle and ray. -/
theorem claim_C6_witness :
    camera.ray_color (fun _ => 1) (fun _ => ⟨0, ⟨0, 0, 0⟩, 0⟩) []
      ⟨⟨0, 0, 0⟩, ⟨0, 0, 0⟩⟩ 0 = ⟨0, 0, 0⟩ :=
  claim_C6 _ _ _ _ 0 (by norm_num)

theorem channel_zero :
    trunc_int (255.999 * (intensity.clamp (linear_to_gamma 0)).toReal)
      = 0 := by
  unfold linear_to_gamma
  rw [Real.sqrt_zero]
  have h1 : intensity.clamp 0 = ((0 : ℝ) : EReal) := by
    unfold interval.clamp intensity
    rw [if_neg (lt_irrefl _),
      if_neg (by rw [gt_iff_lt, EReal.coe_lt_coe_iff]; norm_num)]
  rw [h1, EReal.toReal_coe, mul_zero]
  unfold trunc_int
  rw [if_pos le_rfl, Int.floor_zero]

theorem channel_one :
    trunc_int (255.999 * (intensity.clamp (linear_to_gamma 1)).toReal)
      = 255 := by
  unfold linear_to_gamma
  rw [Real.sqrt_one]
  have h1 : intensity.clamp 1 = ((0.999 : ℝ) : EReal) := by
    unfold interval.clamp intensity
    rw [if_neg (by rw [EReal.coe_lt_coe_iff]; norm_num),
      if_pos (by rw [gt_iff_lt, EReal.coe_lt_coe_iff]; norm_num)]
  rw [h1, EReal.toReal_coe]
  unfold trunc_int
  rw [if_pos (by norm_num)]
  rw [show (255.999 * (0.999 : ℝ)) = 255.743001 by norm_num]
  rw [Int.floor_eq_iff]
  norm_num

/-- C8: for any sample count `n ≥ 1`, an accumulated pixel color `(0,0,0)`
serializes to the integer triple `0 0 0`, and an accumulation `(n,n,n)`
(average exactly `(1,1,1)`) serializes to `255 255 255`, after square-root
gamma, clamping to `[0, 0.999]`, scaling by `255.999` and truncation. -/
theorem claim_C8 (n : ℤ) (hn : 1 ≤ n) :
    write_color ⟨0, 0, 0⟩ n = (0, 0, 0) ∧
      write_color ⟨(n : ℝ), (n : ℝ), (n : ℝ)⟩ n = (255, 255, 255) := by
  have hne : (n : ℝ) ≠ 0 := by
    have h0 : (0 : ℝ) < (n : ℝ) := by exact_mod_cast hn.trans_lt' zero_lt_one
    linarith
  have harg : (n : ℝ) * (1 / (n : ℝ)) = 1 := by field_simp
  constructor
  · unfold write_color
    simp only [zero_mul, channel_zero]
  · unfold write_color
    simp only [harg, channel_one]

/-- C4: `dielectric::scatter` always returns true (never absorbs) with
attenuation `(1,1,1)`, and whenever the total-internal-reflection
condition `refraction_ratio * sin_theta > 1` holds it produces the
reflected direction `reflect(unit_direction, normal)` — never the
refracted one — for every value of the random draw. -/
theorem claim_C4 (ir : ℝ) (Qs : ℝ → ℝ) (rnd : rand_draws) (r : ray)
    (rec : hit_record) (attenuation : vec3) (scattered : ray) :
    ((material.dielectric ir).scatter Qs rnd r rec attenuation
        scattered).1 = true ∧
      ((material.dielectric ir).scatter Qs rnd r rec attenuation
        scattered).2.1 = ⟨1, 1, 1⟩ ∧
      ((if rec.frontfacing then 1 / ir else ir) *
          Real.sqrt (1 -
            min (dot (-(unit_vectorQ Qs r.dir)) rec.normal) 1 *
              min (dot (-(unit_vectorQ Qs r.dir)) rec.normal) 1) > 1 →
        ((material.dielectric ir).scatter Qs rnd r rec attenuation
          scattered).2.2 =
          ⟨rec.p, reflect (unit_vectorQ Qs r.dir) rec.normal⟩) := by
  refine ⟨rfl, rfl, fun h => ?_⟩
  show (⟨rec.p,
      if ((if rec.frontfacing then 1 / ir else ir) *
            Real.sqrt (1 -
              min (dot (-(unit_vectorQ Qs r.dir)) rec.normal) 1 *
                min (dot (-(unit_vectorQ Qs r.dir)) rec.normal) 1) > 1) ∨
          reflectance (min (dot (-(unit_vectorQ Qs r.dir)) rec.normal) 1)
            (if rec.frontfacing then 1 / ir else ir) > rnd.draw then
        reflect (unit_vectorQ Qs r.dir) rec.normal
      else
        refract (unit_vectorQ Qs r.dir) rec.normal
          (if rec.frontfacing then 1 / ir else ir)⟩ : ray) =
    ⟨rec.p, reflect (unit_vectorQ Qs r.dir) rec.normal⟩
  rw [if_pos (Or.inl h)]

/-- Concrete back-facing dielectric hit record used by the C4 witness. -/
def recC4 : hit_record := ⟨⟨0, 0, 0⟩, 0, ⟨0, 1, 0⟩, false, .dielectric 2⟩

/-- Concrete ray used by the C4 witness: it grazes along the surface, so
`sin_theta = 1` and the exit into the denser-to-thinner transition with
`refraction_ratio = 2` is total internal reflection. -/
def rayC4 : ray := ⟨⟨0, 0, 0⟩, ⟨1, 0, 0⟩⟩

/-- Witness for C4 at a concrete total-internal-reflection configuration. -/
theorem claim_C4_witness :
    ((material.dielectric 2).scatter (fun _ => 1) ⟨0, ⟨0, 0, 0⟩, 0⟩ rayC4
        recC4 ⟨0, 0, 0⟩ ⟨⟨0, 0, 0⟩, ⟨0, 0, 0⟩⟩).1 = true ∧
      ((material.dielectric 2).scatter (fun _ => 1) ⟨0, ⟨0, 0, 0⟩, 0⟩ rayC4
        recC4 ⟨0, 0, 0⟩ ⟨⟨0, 0, 0⟩, ⟨0, 0, 0⟩⟩).2.1 = ⟨1, 1, 1⟩ ∧
      ((material.dielectric 2).scatter (fun _ => 1) ⟨0, ⟨0, 0, 0⟩, 0⟩ rayC4
        recC4 ⟨0, 0, 0⟩ ⟨⟨0, 0, 0⟩, ⟨0, 0, 0⟩⟩).2.2 =
        ⟨recC4.p, reflect (unit_vectorQ (fun _ => 1) rayC4.dir)
          recC4.normal⟩ := by
  obtain ⟨h1, h2, h3⟩ := claim_C4 2 (fun _ => 1) ⟨0, ⟨0, 0, 0⟩, 0⟩ rayC4
    recC4 ⟨0, 0, 0⟩ ⟨⟨0, 0, 0⟩, ⟨0, 0, 0⟩⟩
  refine ⟨h1, h2, h3 ?_⟩
  have hu : unit_vectorQ (fun _ => 1) rayC4.dir = ⟨1, 0, 0⟩ := by
    apply vec3.ext_xyz <;> norm_num [unit_vectorQ, rayC4,
      vec3.length_squared]
  rw [hu]
  have hdot : dot (-(⟨1, 0, 0⟩ : vec3)) recC4.normal = 0 := by
    norm_num [dot, recC4]
  rw [hdot]
  norm_num [recC4, Real.sqrt_one]

/-- C10: when `metal::scatter` reports absorption — the fuzzed reflected
direction has non-positive dot product with the normal — it has already
overwritten both out-parameters: attenuation is the albedo and scattered
is the rejected fuzzed reflected ray (absorption is not atomic with
respect to the caller's values). -/
theorem claim_C10 (albedo : vec3) (fuzz : ℝ) (Qs : ℝ → ℝ)
    (rnd : rand_draws) (r : ray) (rec : hit_record) (attenuation : vec3)
    (scattered : ray) (h1 : rnd.does_it_scatter < 1)
    (h2 : dot (reflect (unit_vectorQ Qs r.dir) rec.normal + fuzz * rnd.ruv)
      rec.normal ≤ 0) :
    (material.metal albedo fuzz).scatter Qs rnd r rec attenuation scattered
      = (false, albedo, ⟨rec.p,
          reflect (unit_vectorQ Qs r.dir) rec.normal + fuzz * rnd.ruv⟩) := by
  show (if rnd.does_it_scatter < 1 then
      (decide (dot (⟨rec.p, reflect (unit_vectorQ Qs r.dir) rec.normal +
          fuzz * rnd.ruv⟩ : ray).dir rec.normal > 0), albedo / (1 : ℝ),
        (⟨rec.p, reflect (unit_vectorQ Qs r.dir) rec.normal +
          fuzz * rnd.ruv⟩ : ray))
    else (false, attenuation, scattered)) = _
  rw [if_pos h1]
  have hb : decide (dot (⟨rec.p, reflect (unit_vectorQ Qs r.dir)
      rec.normal + fuzz * rnd.ruv⟩ : ray).dir rec.normal > 0) = false := by
    rw [decide_eq_false_iff_not]
    exact not_lt.mpr h2
  have ha : albedo / (1 : ℝ) = albedo := by
    apply vec3.ext_xyz <;> norm_num
  rw [hb, ha]

/-- Witness for C10: a unit fuzz draw that folds the reflected ray back
under the surface, so the metal absorbs but the out-parameters hold the
albedo and the rejected ray. -/
theorem claim_C10_witness :
    (material.metal ⟨1 / 2, 1 / 2, 1 / 2⟩ 1).scatter (fun _ => 1)
        ⟨0, ⟨0, 0, -2⟩, 0⟩ rayW recW ⟨0, 0, 0⟩ ⟨⟨0, 0, 0⟩, ⟨0, 0, 0⟩⟩ =
      (false, ⟨1 / 2, 1 / 2, 1 / 2⟩, ⟨recW.p,
        reflect (unit_vectorQ (fun _ => 1) rayW.dir) recW.normal +
          (1 : ℝ) * (⟨0, 0, -2⟩ : vec3)⟩) := by
  have hu : unit_vectorQ (fun _ => 1) rayW.dir = ⟨0, 0, -1⟩ := by
    apply vec3.ext_xyz <;> norm_num [unit_vectorQ, rayW,
      vec3.length_squared]
  refine claim_C10 ⟨1 / 2, 1 / 2, 1 / 2⟩ 1 (fun _ => 1) ⟨0, ⟨0, 0, -2⟩, 0⟩
    rayW recW ⟨0, 0, 0⟩ ⟨⟨0, 0, 0⟩, ⟨0, 0, 0⟩⟩ (by norm_num) ?_
  rw [hu]
  norm_num [reflect, dot, recW]

@[simp] theorem interval.eta_mk (i : interval) :
    (⟨i.min, i.max⟩ : interval) = i := rfl

/-- C2: whenever the aggregate reports a hit, the returned record is a hit
of one of the members, its `t` is minimal among all members that
individually intersect within the query interval, and ties at equal `t`
go to the first such member: every member listed before the winner hits
only strictly farther, every member after no closer. -/
theorem claim_C2 (objs : List sphere) (r : ray) (ray_t : interval)
    (ρ₀ rec : hit_record)
    (h : hittable_list.hit objs r ray_t ρ₀ = (true, rec)) :
    (∀ s ∈ objs, ∀ ρ', s.hit r ray_t = some ρ' → rec.t ≤ ρ'.t) ∧
      ∃ l₁ w l₂, objs = l₁ ++ w :: l₂ ∧ w.hit r ray_t = some rec ∧
        (∀ s ∈ l₁, ∀ ρ', s.hit r ray_t = some ρ' → rec.t < ρ'.t) ∧
        (∀ s ∈ l₂, ∀ ρ', s.hit r ray_t = some ρ' → rec.t ≤ ρ'.t) := by
  obtain ⟨l₁, w, l₂, hsplit, hw, hstrict, hweak⟩ :=
    hittable_list.hit_spec objs r ray_t ρ₀ rec h
  refine ⟨?_, l₁, w, l₂, hsplit, hw, hstrict, hweak⟩
  intro s hs ρ' hρ'
  rw [hsplit] at hs
  rcases List.mem_append.mp hs with hmem | hmem
  · exact le_of_lt (hstrict s hmem ρ' hρ')
  · rcases List.mem_cons.mp hmem with rfl | hmem
    · rw [hw] at hρ'
      injection hρ' with hρ'
      exact le_of_eq (by rw [hρ'])
    · exact hweak s hmem ρ' hρ'

theorem sphereW_hit_shrunk :
    sphereW.hit rayW ⟨intervalW.min, ((recW.t : ℝ) : EReal)⟩ = none := by
  show sphereW.hit rayW ⟨((1 / 2 : ℝ) : EReal), ((1 : ℝ) : EReal)⟩ = none
  unfold sphere.hit
  rw [if_neg (by rw [sphereW_disc]; norm_num),
    if_neg (by
      unfold interval.surrounds
      rw [sphereW_root1]
      rintro ⟨-, hb⟩
      exact absurd (EReal.coe_lt_coe_iff.mp hb) (lt_irrefl 1)),
    if_neg (by
      unfold interval.surrounds
      rw [sphereW_root2]
      rintro ⟨-, hb⟩
      have h3 := EReal.coe_lt_coe_iff.mp hb
      norm_num at h3)]

theorem listW_hit :
    hittable_list.hit [sphereW, sphereW] rayW intervalW default =
      (true, recW) := by
  simp only [hittable_list.hit, hittable_list.hitLoop, interval.eta_mk,
    sphereW_hit_main, sphereW_hit_shrunk]

/-- Witness for C2: two identical spheres; the aggregate returns the first
member's record, the second (equal-`t`) member does not replace it. -/
theorem claim_C2_witness :
    (∀ s ∈ [sphereW, sphereW], ∀ ρ', s.hit rayW intervalW = some ρ' →
        recW.t ≤ ρ'.t) ∧
      ∃ l₁ w l₂, [sphereW, sphereW] = l₁ ++ w :: l₂ ∧
        w.hit rayW intervalW = some recW ∧
        (∀ s ∈ l₁, ∀ ρ', s.hit rayW intervalW = some ρ' →
          recW.t < ρ'.t) ∧
        (∀ s ∈ l₂, ∀ ρ', s.hit rayW intervalW = some ρ' →
          recW.t ≤ ρ'.t) :=
  claim_C2 [sphereW, sphereW] rayW intervalW default recW listW_hit

/-- C7: the aggregate writes the caller's record only when a member
produced an improving hit during this call; in particular a false return
leaves the caller's record exactly as it was, and a true return hands back
a record some member actually produced. -/
theorem claim_C7 (objs : List sphere) (r : ray) (ray_t : interval)
    (ρ₀ : hit_record) :
    ((hittable_list.hit objs r ray_t ρ₀).1 = false →
      (hittable_list.hit objs r ray_t ρ₀).2 = ρ₀) ∧
    (∀ rec, hittable_list.hit objs r ray_t ρ₀ = (true, rec) →
      ∃ s ∈ objs, s.hit r ray_t = some rec) := by
  constructor
  · intro h
    exact (hittable_list.hitLoop_frame r ray_t.min objs ray_t.max false ρ₀
      h).2
  · intro rec h
    obtain ⟨l₁, w, l₂, hsplit, hw, -, -⟩ :=
      hittable_list.hit_spec objs r ray_t ρ₀ rec h
    refine ⟨w, ?_, hw⟩
    rw [hsplit]
    exact List.mem_append_right _ (List.mem_cons_self _ _)

theorem singleW_hit :
    hittable_list.hit [sphereW] rayW intervalW default = (true, recW) := by
  simp only [hittable_list.hit, hittable_list.hitLoop, interval.eta_mk,
    sphereW_hit_main]

/-- Witness for C7: an empty aggregate returns false and leaves the
caller's record untouched; a one-sphere aggregate that hits returns that
sphere's own record. -/
theorem claim_C7_witness :
    (hittable_list.hit [] rayW intervalW recW).2 = recW ∧
      ∃ s ∈ [sphereW], s.hit rayW intervalW = some recW :=
  ⟨(claim_C7 [] rayW intervalW recW).1 rfl,
    (claim_C7 [sphereW] rayW intervalW default).2 recW singleW_hit⟩

theorem quad_root_aux (a b c q x : ℝ) (ha : a ≠ 0)
    (hq : q * q = b * b - a * c)
    (hx : x = (-b - q) / a ∨ x = (-b + q) / a) :
    a * (x * x) + 2 * b * x + c = 0 := by
  rcases hx with rfl | rfl <;>
    · field_simp
      linear_combination a ^ 2 * hq

theorem vec3.length_squared_smul (t : ℝ) (v : vec3) :
    (t * v).length_squared = t * t * v.length_squared := by
  unfold vec3.length_squared
  simp only [vec3.smul_x, vec3.smul_y, vec3.smul_z]
  ring

theorem vec3.length_squared_neg (v : vec3) :
    (-v).length_squared = v.length_squared := by
  unfold vec3.length_squared
  simp only [vec3.neg_x, vec3.neg_y, vec3.neg_z]
  ring

theorem dot_neg_right (u v : vec3) : dot u (-v) = -dot u v := by
  unfold dot
  simp only [vec3.neg_x, vec3.neg_y, vec3.neg_z]
  ring

/-- A parameter that solves the sphere's quadratic puts the ray point on
the sphere surface. -/
theorem hit_point_on_sphere (s : sphere) (r : ray)
    (ha : r.dir.length_squared ≠ 0) (hd : 0 ≤ s.disc r) (root : ℝ)
    (hroot : root = s.root1 r ∨ root = s.root2 r) :
    (r.at root - s.center).length_squared = s.radius * s.radius := by
  have hq : Real.sqrt (s.disc r) * Real.sqrt (s.disc r) =
      s.half_b r * s.half_b r - s.acoef r * s.ccoef r :=
    Real.mul_self_sqrt hd
  have hquad : s.acoef r * (root * root) + 2 * s.half_b r * root +
      s.ccoef r = 0 :=
    quad_root_aux (s.acoef r) (s.half_b r) (s.ccoef r)
      (Real.sqrt (s.disc r)) root ha hq hroot
  have hexp : (r.at root - s.center).length_squared =
      (r.orig - s.center).length_squared +
        2 * root * dot r.dir (r.orig - s.center) +
        root * root * r.dir.length_squared := by
    unfold ray.at vec3.length_squared dot
    simp only [vec3.add_x, vec3.add_y, vec3.add_z, vec3.sub_x, vec3.sub_y,
      vec3.sub_z, vec3.smul_x, vec3.smul_y, vec3.smul_z]
    ring
  rw [hexp]
  unfold sphere.acoef sphere.half_b sphere.ccoef at hquad
  linear_combination hquad

/-- The normal `set_face_normal` stores is the outward normal or its
negation. -/
theorem sphere.record_normal (s : sphere) (r : ray) (root : ℝ) :
    (s.record r root).normal = (r.at root - s.center) / s.radius ∨
      (s.record r root).normal = -((r.at root - s.center) / s.radius) := by
  unfold sphere.record hit_record.set_face_normal
  by_cases h : decide (dot r.dir ((r.at root - s.center) / s.radius) < 0)
      = true
  · left; simp only [h, if_true]
  · right
    rw [Bool.not_eq_true] at h
    simp only [h, Bool.false_eq_true, if_false]

/-- The stored normal never points with the incoming ray. -/
theorem sphere.record_dot_nonpos (s : sphere) (r : ray) (root : ℝ) :
    dot r.dir (s.record r root).normal ≤ 0 := by
  unfold sphere.record hit_record.set_face_normal
  by_cases h : dot r.dir ((r.at root - s.center) / s.radius) < 0
  · simp only [decide_eq_true_eq, h, if_true]
    exact le_of_lt h
  · have hb : decide (dot r.dir ((r.at root - s.center) / s.radius) < 0)
        = false := by
      rw [decide_eq_false_iff_not]; exact h
    simp only [hb, Bool.false_eq_true, if_false]
    rw [dot_neg_right]
    linarith [not_lt.mp h]

/-- Unit length and orientation of the record a successful sphere hit
writes, for a nondegenerate ray direction and nonzero radius. -/
theorem sphere_hit_normal (s : sphere) (r : ray) (ray_t : interval)
    (rec : hit_record) (ha : r.dir.length_squared ≠ 0)
    (hrad : s.radius ≠ 0) (h : s.hit r ray_t = some rec) :
    rec.normal.length = 1 ∧ dot r.dir rec.normal ≤ 0 := by
  obtain ⟨hd, hcase⟩ := (sphere.hit_eq_some_iff s r ray_t rec).mp h
  have hd' : 0 ≤ s.disc r := not_lt.mp hd
  obtain ⟨root, hroot, hrec⟩ : ∃ root,
      (root = s.root1 r ∨ root = s.root2 r) ∧ rec = s.record r root := by
    rcases hcase with ⟨-, hrec⟩ | ⟨-, -, hrec⟩
    exacts [⟨_, Or.inl rfl, hrec⟩, ⟨_, Or.inr rfl, hrec⟩]
  subst hrec
  have hsurf := hit_point_on_sphere s r ha hd' root hroot
  have hls : ((r.at root - s.center) / s.radius).length_squared = 1 := by
    rw [vec3.div_scalar_def, vec3.length_squared_smul, hsurf]
    field_simp
  constructor
  · have hn : (s.record r root).normal.length_squared = 1 := by
      rcases sphere.record_normal s r root with hN | hN <;> rw [hN]
      · exact hls
      · rw [vec3.length_squared_neg]
        exact hls
    unfold vec3.length
    rw [hn, Real.sqrt_one]
  · exact sphere.record_dot_nonpos s r root

/-- C3: for every hit a sphere reports (front or back facing), the
recorded normal is unit length and satisfies
`dot(ray.direction, normal) ≤ 0` — it is oriented against the incoming
ray — and the same invariant holds for every record the aggregate
returns.  (As the spec's invariants require, the sphere radius is nonzero
and the ray direction nondegenerate.) -/
theorem claim_C3 (r : ray) (ha : r.dir.length_squared ≠ 0) :
    (∀ s : sphere, s.radius ≠ 0 → ∀ ray_t rec, s.hit r ray_t = some rec →
        rec.normal.length = 1 ∧ dot r.dir rec.normal ≤ 0) ∧
    (∀ objs : List sphere, (∀ s ∈ objs, s.radius ≠ 0) →
      ∀ ray_t ρ₀ rec, hittable_list.hit objs r ray_t ρ₀ = (true, rec) →
        rec.normal.length = 1 ∧ dot r.dir rec.normal ≤ 0) := by
  constructor
  · intro s hs ray_t rec h
    exact sphere_hit_normal s r ray_t rec ha hs h
  · intro objs hobjs ray_t ρ₀ rec h
    obtain ⟨l₁, w, l₂, hsplit, hw, -, -⟩ :=
      hittable_list.hit_spec objs r ray_t ρ₀ rec h
    have hwmem : w ∈ objs := by
      rw [hsplit]
      exact List.mem_append_right _ (List.mem_cons_self _ _)
    exact sphere_hit_normal w r ray_t rec ha (hobjs w hwmem) hw

/-- Witness for C3 at the concrete hit of `sphereW` by `rayW`. -/
theorem claim_C3_witness :
    recW.normal.length = 1 ∧ dot rayW.dir recW.normal ≤ 0 :=
  (claim_C3 rayW (by norm_num [rayW, vec3.length_squared])).1 sphereW
    (by norm_num [sphereW]) intervalW recW sphereW_hit_main

/-- Witness for C8 at four samples per pixel. -/
theorem claim_C8_witness :
    write_color ⟨0, 0, 0⟩ 4 = (0, 0, 0) ∧
      write_color ⟨((4 : ℤ) : ℝ), ((4 : ℤ) : ℝ), ((4 : ℤ) : ℝ)⟩ 4 =
        (255, 255, 255) :=
  claim_C8 4 (by norm_num)
